import Mathlib

/-!
Verification of the `TradeRecorder` analyzer
(`backtrader/analyzers/traderecorder.py`).

The analyzer keeps a Python dict `_tradeDict` from `tradeid` to the latest
`Trade` object (`notify_trade`), and at `stop()` builds three outputs:
`openTrades`, `closedTrades` and `equityCurve`, depending on the `mode`
parameter (one of "trades", "equity", "trades+equity").

The embedding below models:
  * a `Trade` object as a record; the hacked attributes `close_datetime` /
    `exit_price` (and the optional `R` stop) are `Option`s, matching the
    `AttributeError` / `hasattr` behaviour of the source;
  * `_tradeDict` as an insertion-ordered association list with Python-dict
    update semantics (update in place keeps the original position, a fresh key
    is appended at the end);
  * `stop()` as a pure function returning `Except Err Rets`; each Python
    exception site gets its own `Err` constructor
    (`missingExitAttr` = the `AttributeError` raised in the try-block,
    `noneSubscript` = the `TypeError` from `o.closedTrades[[...]]` when
    `closedTrades` is `None`, `noneIterate` / `noneAssign` = the `TypeError`s
    from iterating / item-assigning `self._tradeDict` after it was set to
    `None`);
  * `pandas.sort_values(['exit_date'], ascending=True)` as a sort by the
    date component (a stable insertion sort is used here; note the pandas
    default kind "quicksort" does not promise stability);
  * `cumsum` as a running-sum over the sorted rows.

Numeric values (prices, pnl, datetimes) are modelled as `Int`.
-/

deriving instance DecidableEq for Except

namespace TradeRecorder

/-- A Trade object as seen by the analyzer.  `close_datetime` and
`exit_price` model the hacked attributes that may be absent
(`AttributeError` when accessed), `R` models the optional R-stop attribute
checked with `hasattr`. -/
structure Trade where
  tradeid : Nat
  isopen : Bool
  long : Bool
  entry_price : Int
  open_datetime : Int
  pnl : Int
  pnlcomm : Int
  close_datetime : Option Int
  exit_price : Option Int
  R : Option Int
deriving DecidableEq, Repr

/-- One row of the per-trade DataFrame built in `stop()`.  The exit columns
are only assigned in the closed branch, hence `Option`. -/
structure TradeRow where
  entry_price : Int
  entry_date : Int
  pnl : Int
  pnlcomm : Int
  is_long : Bool
  R_stop : Option Int
  tradeid : Nat
  exit_date : Option Int
  exit_price : Option Int
deriving DecidableEq, Repr

/-- Python exception sites of the analyzer. -/
inductive Err where
  /-- `Exception` raised by `create_analysis` for an invalid `mode`. -/
  | invalidMode : Err
  /-- `AttributeError` raised (after logging) in the try-block of `stop()`
  when `close_datetime` / `exit_price` are missing. -/
  | missingExitAttr : Err
  /-- `TypeError` from `o.closedTrades[['exit_date','pnlcomm']]` when
  `o.closedTrades` is `None`. -/
  | noneSubscript : Err
  /-- `TypeError` from `for n in self._tradeDict` when `_tradeDict` is
  `None` (a second `stop()`). -/
  | noneIterate : Err
  /-- `TypeError` from `self._tradeDict[tradeid] = trade` when `_tradeDict`
  is `None` (`notify_trade` after `stop()`). -/
  | noneAssign : Err
deriving DecidableEq, Repr

/-- Python-dict update on an insertion-ordered association list: an existing
key keeps its original position and gets the new value, a fresh key is
appended at the end. -/
def dictInsert : List (Nat × Trade) → Nat → Trade → List (Nat × Trade)
  | [], k, v => [(k, v)]
  | p :: rest, k, v =>
      if p.1 = k then (k, v) :: rest else p :: dictInsert rest k v

/-- Keys of the dict, in insertion order. -/
def dictKeys (d : List (Nat × Trade)) : List Nat := d.map Prod.fst

/-- Values of the dict, in insertion order (= Python dict iteration order,
as used by `for n in self._tradeDict`). -/
def dictValues (d : List (Nat × Trade)) : List Trade := d.map Prod.snd

/-- Dict lookup. -/
def dictLookup : List (Nat × Trade) → Nat → Option Trade
  | [], _ => none
  | p :: rest, k => if p.1 = k then some p.2 else dictLookup rest k

/-- `self._tradeDict[trade.tradeid] = trade` for every notification of `ns`,
in order, starting from an empty dict. -/
def recordAll (ns : List Trade) : List (Nat × Trade) :=
  ns.foldl (fun d t => dictInsert d t.tradeid t) []

/-- The last notification of `ns` carrying the given trade id, if any. -/
def lastSnap : List Trade → Nat → Option Trade
  | [], _ => none
  | t :: rest, i =>
      match lastSnap rest i with
      | some u => some u
      | none => if t.tradeid = i then some t else none

/-- The basic DataFrame row built for every trade at the top of the `stop()`
loop (common to the open and closed branches). -/
def buildRow (t : Trade) : TradeRow :=
  { entry_price := t.entry_price
    entry_date := t.open_datetime
    pnl := t.pnl
    pnlcomm := t.pnlcomm
    is_long := t.long
    R_stop := t.R
    tradeid := t.tradeid
    exit_date := none
    exit_price := none }

/-- The closed-branch row: the basic row with the exit columns assigned. -/
def closedRow (t : Trade) : TradeRow :=
  { buildRow t with exit_date := t.close_datetime, exit_price := t.exit_price }

/-- The `for n in self._tradeDict` loop of `stop()`, accumulating the
`openTrades` and `closedTrades` lists.  Faithful to the source, including the
branch condition `trade.isopen and self.p.mode in ['trade','trades+equity']`
(note `'trade'`, not `'trades'`). -/
def stopLoop (mode : String) :
    List Trade → List TradeRow → List TradeRow →
    Except Err (List TradeRow × List TradeRow)
  | [], opens, closeds => .ok (opens, closeds)
  | t :: rest, opens, closeds =>
      if t.isopen && (mode == "trade" || mode == "trades+equity") then
        stopLoop mode rest (opens ++ [buildRow t]) closeds
      else
        if mode == "trades" || mode == "trades+equity" then
          match t.close_datetime, t.exit_price with
          | some _, some _ => stopLoop mode rest opens (closeds ++ [closedRow t])
          | _, _ => .error Err.missingExitAttr
        else
          stopLoop mode rest opens closeds

/-- Stable insertion step for the sort by `exit_date`. -/
def insertByDate (x : Int × Int) : List (Int × Int) → List (Int × Int)
  | [] => [x]
  | y :: rest => if x.1 ≤ y.1 then x :: y :: rest else y :: insertByDate x rest

/-- The model of `_df.sort_values(['exit_date'], ascending=True)`: sort the
`(exit_date, pnlcomm)` rows by date ascending. -/
def sortByDate (l : List (Int × Int)) : List (Int × Int) :=
  l.foldr insertByDate []

/-- `_df['pnlcomm'] = _df.pnlcomm.cumsum()`: replace each pnl value by the
running sum so far (dates untouched). -/
def cumsum (acc : Int) : List (Int × Int) → List (Int × Int)
  | [] => []
  | (d, p) :: rest => (d, acc + p) :: cumsum (acc + p) rest

/-- The analyzer's results object `self.rets` after `stop()`:
`openTrades`, `closedTrades` (both set to `None` when empty or when trades
are not requested) and `equityCurve` (a list of `(date, equity)` rows, or
`None` when equity is not requested). -/
structure Rets where
  openTrades : Option (List TradeRow)
  closedTrades : Option (List TradeRow)
  equityCurve : Option (List (Int × Int))
deriving DecidableEq, Repr

/-- The whole computation of `stop()` on the dict values (in iteration
order): the trade loop, the `pd.concat`-or-`None` post-processing, and the
equity-curve derivation. -/
def stopCompute (mode : String) (ts : List Trade) : Except Err Rets :=
  match stopLoop mode ts [] [] with
  | .error e => .error e
  | .ok (opens, closeds) =>
      let closedOpt : Option (List TradeRow) :=
        if mode == "trades" || mode == "trades+equity" then
          (if closeds.isEmpty then none else some closeds)
        else none
      let openOpt : Option (List TradeRow) :=
        if mode == "trades" || mode == "trades+equity" then
          (if opens.isEmpty then none else some opens)
        else none
      if mode == "equity" || mode == "trades+equity" then
        match closedOpt with
        | none => .error Err.noneSubscript
        | some rows =>
            let pairs := rows.map (fun r => (r.exit_date.getD 0, r.pnlcomm))
            .ok { openTrades := openOpt, closedTrades := closedOpt,
                  equityCurve := some (cumsum 0 (sortByDate pairs)) }
      else
        .ok { openTrades := openOpt, closedTrades := closedOpt,
              equityCurve := none }

/-- The analyzer instance: the `mode` parameter, the hidden `_tradeDict`
(`none` once it has been "killed" by `stop()`), and `self.rets` once
finalized. -/
structure Ledger where
  mode : String
  tradeDict : Option (List (Nat × Trade))
  rets : Option Rets
deriving DecidableEq, Repr

/-- `create_analysis`: validate the mode, start with an empty dict. -/
def create_analysis (mode : String) : Except Err Ledger :=
  if mode == "trades" || mode == "equity" || mode == "trades+equity" then
    .ok { mode := mode, tradeDict := some [], rets := none }
  else .error Err.invalidMode

/-- `notify_trade`: `self._tradeDict[trade.tradeid] = trade`.  Raises a
`TypeError` when `_tradeDict` has been set to `None` by `stop()`. -/
def notify_trade (l : Ledger) (t : Trade) : Except Err Ledger :=
  match l.tradeDict with
  | none => .error Err.noneAssign
  | some d => .ok { l with tradeDict := some (dictInsert d t.tradeid t) }

/-- `stop`: iterate the dict (raising a `TypeError` when it is `None`),
compute the results and kill the dict. -/
def stop (l : Ledger) : Except Err Ledger :=
  match l.tradeDict with
  | none => .error Err.noneIterate
  | some d =>
      match stopCompute l.mode (dictValues d) with
      | .error e => .error e
      | .ok r => .ok { l with tradeDict := none, rets := some r }

/-- Record the notifications `ns` in order on a fresh instance, then run the
`stop()` computation. -/
def runRecorder (mode : String) (ns : List Trade) : Except Err Rets :=
  stopCompute mode (dictValues (recordAll ns))

/-- The value of the last point of the equity curve of a `stop()` result. -/
def finalEquity (e : Except Err Rets) : Option Int :=
  match e with
  | .error _ => none
  | .ok r => ((r.equityCurve.getD []).map Prod.snd).getLast?

/-- Sum of `pnlcomm` over the closed trades of a list. -/
def closedPnlSum (ts : List Trade) : Int :=
  ((ts.filter (fun t => !t.isopen)).map Trade.pnlcomm).sum

/-- Rows of the open branch of the `stop()` loop, in iteration order. -/
def openRows (ts : List Trade) : List TradeRow :=
  (ts.filter (fun t => t.isopen)).map buildRow

/-- Rows of the closed branch of the `stop()` loop, in iteration order. -/
def closedRows (ts : List Trade) : List TradeRow :=
  (ts.filter (fun t => !t.isopen)).map closedRow

/-- The `(exit_date, pnlcomm)` projection fed to the equity derivation. -/
def closedPairs (ts : List Trade) : List (Int × Int) :=
  (closedRows ts).map (fun r => (r.exit_date.getD 0, r.pnlcomm))

/-! ### Lemmas on the trade dict -/

theorem dictLookup_dictInsert (d : List (Nat × Trade)) (k i : Nat) (v : Trade) :
    dictLookup (dictInsert d k v) i = if k = i then some v else dictLookup d i := by
  induction d with
  | nil =>
      by_cases h : k = i <;> simp [dictInsert, dictLookup, h]
  | cons p rest ih =>
      by_cases hp : p.1 = k
      · subst hp
        by_cases h : p.1 = i <;> simp [dictInsert, dictLookup, h]
      · by_cases h : p.1 = i
        · have hki : ¬ k = i := fun hk => hp (by rw [h, hk])
          simp only [dictInsert, if_neg hp]
          simp [dictLookup, h, hki]
        · simp only [dictInsert, if_neg hp]
          simp [dictLookup, h, ih]

theorem dictKeys_dictInsert (d : List (Nat × Trade)) (k : Nat) (v : Trade) :
    dictKeys (dictInsert d k v) =
      if k ∈ dictKeys d then dictKeys d else dictKeys d ++ [k] := by
  induction d with
  | nil => simp [dictInsert, dictKeys]
  | cons p rest ih =>
      by_cases hp : p.1 = k
      · subst hp
        simp [dictInsert, dictKeys]
      · have hkp : ¬ k = p.1 := fun h => hp h.symm
        simp only [dictKeys] at ih ⊢
        simp only [dictInsert, if_neg hp, List.map_cons]
        by_cases hc : k ∈ List.map Prod.fst rest
        · rw [if_pos (by simp [hc] : k ∈ p.1 :: List.map Prod.fst rest)]
          rw [ih, if_pos hc]
        · rw [if_neg (by simp [hkp, hc] : ¬ k ∈ p.1 :: List.map Prod.fst rest)]
          rw [ih, if_neg hc]
          simp

theorem dictKeys_nodup_dictInsert (d : List (Nat × Trade)) (k : Nat) (v : Trade)
    (h : (dictKeys d).Nodup) : (dictKeys (dictInsert d k v)).Nodup := by
  rw [dictKeys_dictInsert]
  by_cases hc : k ∈ dictKeys d
  · simpa [hc] using h
  · simp only [hc, if_neg, not_false_iff, List.nodup_append]
    refine ⟨h, List.nodup_singleton _, ?_⟩
    intro a ha hb
    simp at hb
    exact hc (hb ▸ ha)

theorem dictWF_dictInsert (d : List (Nat × Trade)) (v : Trade)
    (h : ∀ p ∈ d, p.2.tradeid = p.1) :
    ∀ p ∈ dictInsert d v.tradeid v, p.2.tradeid = p.1 := by
  induction d with
  | nil => simp [dictInsert]
  | cons q rest ih =>
      by_cases hq : q.1 = v.tradeid
      · simp only [dictInsert, hq, if_pos rfl]
        intro p hp
        rcases List.mem_cons.mp hp with h1 | h2
        · simp [h1]
        · exact h p (List.mem_cons_of_mem _ h2)
      · simp only [dictInsert, if_neg hq]
        intro p hp
        rcases List.mem_cons.mp hp with h1 | h2
        · exact h p (h1 ▸ List.mem_cons_self _ _)
        · exact ih (fun r hr => h r (List.mem_cons_of_mem _ hr)) p h2

theorem dictLookup_foldl (ns : List Trade) :
    ∀ (d : List (Nat × Trade)) (i : Nat),
      dictLookup (ns.foldl (fun d t => dictInsert d t.tradeid t) d) i =
        (lastSnap ns i).elim (dictLookup d i) some := by
  induction ns with
  | nil => intro d i; simp [lastSnap]
  | cons t ns ih =>
      intro d i
      simp only [List.foldl_cons, ih, lastSnap]
      cases h : lastSnap ns i with
      | some u => simp
      | none =>
          by_cases ht : t.tradeid = i <;>
            simp [dictLookup_dictInsert, ht]

theorem dictKeys_nodup_foldl (ns : List Trade) :
    ∀ (d : List (Nat × Trade)), (dictKeys d).Nodup →
      (dictKeys (ns.foldl (fun d t => dictInsert d t.tradeid t) d)).Nodup := by
  induction ns with
  | nil => intro d h; simpa using h
  | cons t ns ih =>
      intro d h
      exact ih _ (dictKeys_nodup_dictInsert d t.tradeid t h)

theorem dictWF_foldl (ns : List Trade) :
    ∀ (d : List (Nat × Trade)), (∀ p ∈ d, p.2.tradeid = p.1) →
      ∀ p ∈ ns.foldl (fun d t => dictInsert d t.tradeid t) d, p.2.tradeid = p.1 := by
  induction ns with
  | nil => intro d h; simpa using h
  | cons t ns ih =>
      intro d h
      exact ih _ (dictWF_dictInsert d t h)

theorem dictLookup_mem_keys (d : List (Nat × Trade)) (k : Nat) (t : Trade)
    (h : dictLookup d k = some t) : k ∈ dictKeys d := by
  induction d with
  | nil => simp [dictLookup] at h
  | cons p rest ih =>
      by_cases hp : p.1 = k
      · simp [dictKeys, hp.symm]
      · simp only [dictLookup, if_neg hp] at h
        simp [dictKeys]
        right
        simpa [dictKeys] using ih h

theorem mem_values_of_dictLookup (d : List (Nat × Trade)) (k : Nat) (t : Trade)
    (h : dictLookup d k = some t) : t ∈ dictValues d := by
  induction d with
  | nil => simp [dictLookup] at h
  | cons p rest ih =>
      by_cases hp : p.1 = k
      · simp only [dictLookup, if_pos hp, Option.some.injEq] at h
        simp [dictValues, h]
      · simp only [dictLookup, if_neg hp] at h
        simp [dictValues]
        right
        simpa [dictValues] using ih h

theorem dictLookup_of_mem_values (d : List (Nat × Trade)) (t : Trade)
    (hnd : (dictKeys d).Nodup) (hwf : ∀ p ∈ d, p.2.tradeid = p.1)
    (h : t ∈ dictValues d) : dictLookup d t.tradeid = some t := by
  induction d with
  | nil => simp [dictValues] at h
  | cons p rest ih =>
      simp only [dictValues, List.map_cons, List.mem_cons] at h
      rcases h with h | h
      · have hp : p.2.tradeid = p.1 := hwf p (List.mem_cons_self _ _)
        subst h
        simp [dictLookup, hp]
      · have hrest : dictLookup rest t.tradeid = some t :=
          ih (by simpa [dictKeys] using hnd.of_cons)
            (fun q hq => hwf q (List.mem_cons_of_mem _ hq))
            (by simpa [dictValues] using h)
        have hkey : t.tradeid ∈ dictKeys rest := dictLookup_mem_keys _ _ _ hrest
        have hne : ¬ p.1 = t.tradeid := by
          intro he
          have hni : p.1 ∉ dictKeys rest := by
            have h' := hnd
            simp only [dictKeys, List.map_cons, List.nodup_cons] at h'
            simpa [dictKeys] using h'.1
          exact hni (he ▸ hkey)
        simp [dictLookup, hne, hrest]

/-- C1: last-write-wins deduplication.  For every sequence of
`notify_trade` calls, the trade dict keeps at most one entry per
`tradeid` (its key list is duplicate-free), looking up an id returns
exactly the last notification recorded for that id, and the snapshots that
survive into the `stop()` iteration (`dictValues`) are exactly the
last-recorded snapshots of their ids. -/
theorem last_write_wins (ns : List Trade) :
    (dictKeys (recordAll ns)).Nodup ∧
    (∀ i, dictLookup (recordAll ns) i = lastSnap ns i) ∧
    (∀ t, t ∈ dictValues (recordAll ns) ↔ lastSnap ns t.tradeid = some t) := by
  have hlookup : ∀ i, dictLookup (recordAll ns) i = lastSnap ns i := by
    intro i
    rw [recordAll, dictLookup_foldl]
    cases lastSnap ns i <;> simp [dictLookup]
  have hnd : (dictKeys (recordAll ns)).Nodup :=
    dictKeys_nodup_foldl ns [] (by simp [dictKeys])
  have hwf : ∀ p ∈ recordAll ns, p.2.tradeid = p.1 :=
    dictWF_foldl ns [] (by simp)
  refine ⟨hnd, hlookup, fun t => ⟨fun hmem => ?_, fun hlast => ?_⟩⟩
  · rw [← hlookup t.tradeid]
    exact dictLookup_of_mem_values _ _ hnd hwf hmem
  · exact mem_values_of_dictLookup _ t.tradeid _ ((hlookup t.tradeid).trans hlast)

/-! ### Lemmas on the sort and the running sum -/

theorem insertByDate_perm (x : Int × Int) (l : List (Int × Int)) :
    List.Perm (insertByDate x l) (x :: l) := by
  induction l with
  | nil => simp [insertByDate]
  | cons y rest ih =>
      by_cases h : x.1 ≤ y.1
      · simp [insertByDate, h]
      · simp only [insertByDate, if_neg h]
        exact (ih.cons y).trans (List.Perm.swap x y rest)

theorem sortByDate_perm (l : List (Int × Int)) : List.Perm (sortByDate l) l := by
  induction l with
  | nil => simp [sortByDate]
  | cons x rest ih =>
      simp only [sortByDate, List.foldr_cons]
      exact (insertByDate_perm x _).trans (ih.cons x)

theorem insertByDate_sorted (x : Int × Int) (l : List (Int × Int))
    (h : List.Pairwise (fun a b : Int × Int => a.1 ≤ b.1) l) :
    List.Pairwise (fun a b : Int × Int => a.1 ≤ b.1) (insertByDate x l) := by
  induction l with
  | nil => simp [insertByDate]
  | cons y rest ih =>
      rcases List.pairwise_cons.mp h with ⟨hy, hrest⟩
      by_cases hle : x.1 ≤ y.1
      · simp only [insertByDate, if_pos hle]
        refine List.pairwise_cons.mpr ⟨?_, h⟩
        intro b hb
        rcases List.mem_cons.mp hb with hb | hb
        · exact hb ▸ hle
        · exact le_trans hle (hy b hb)
      · simp only [insertByDate, if_neg hle]
        refine List.pairwise_cons.mpr ⟨?_, ih hrest⟩
        intro b hb
        have := (insertByDate_perm x rest).mem_iff.mp hb
        rcases List.mem_cons.mp this with hb' | hb'
        · exact hb' ▸ le_of_lt (lt_of_not_ge hle)
        · exact hy b hb'

theorem sortByDate_sorted (l : List (Int × Int)) :
    List.Pairwise (fun a b : Int × Int => a.1 ≤ b.1) (sortByDate l) := by
  induction l with
  | nil => simp [sortByDate]
  | cons x rest ih =>
      simp only [sortByDate, List.foldr_cons]
      exact insertByDate_sorted x _ ih

theorem cumsum_length (a : Int) (l : List (Int × Int)) :
    (cumsum a l).length = l.length := by
  induction l generalizing a with
  | nil => simp [cumsum]
  | cons x rest ih => simpa [cumsum] using ih (a + x.2)

theorem cumsum_map_fst (a : Int) (l : List (Int × Int)) :
    (cumsum a l).map Prod.fst = l.map Prod.fst := by
  induction l generalizing a with
  | nil => simp [cumsum]
  | cons x rest ih => simpa [cumsum] using ih (a + x.2)

theorem cumsum_getLast_snd (a : Int) (l : List (Int × Int)) (h : l ≠ []) :
    ((cumsum a l).map Prod.snd).getLast? = some (a + (l.map Prod.snd).sum) := by
  induction l generalizing a with
  | nil => exact absurd rfl h
  | cons x rest ih =>
      cases rest with
      | nil => simp [cumsum]
      | cons y t =>
          have hr : (y :: t) ≠ ([] : List (Int × Int)) := by simp
          have := ih (a + x.2) hr
          simp only [cumsum, List.map_cons, List.getLast?_cons_cons] at this ⊢
          rw [this]
          congr 1
          simp only [List.sum_cons]
          ring

/-! ### Lemmas on the `stop()` loop -/

theorem stopLoop_trades_equity (ts : List Trade)
    (hexit : ∀ t ∈ ts, t.isopen = false →
      t.close_datetime.isSome ∧ t.exit_price.isSome) :
    ∀ (opens closeds : List TradeRow),
      stopLoop "trades+equity" ts opens closeds =
        .ok (opens ++ openRows ts, closeds ++ closedRows ts) := by
  induction ts with
  | nil => intro opens closeds; simp [stopLoop, openRows, closedRows]
  | cons t rest ih =>
      intro opens closeds
      have ihrest := ih (fun u hu => hexit u (List.mem_cons_of_mem _ hu))
      cases hopen : t.isopen with
      | true =>
          simp [stopLoop, hopen, openRows, closedRows, ihrest]
      | false =>
          rcases hexit t (List.mem_cons_self _ _) hopen with ⟨hd, hp⟩
          rcases Option.isSome_iff_exists.mp hd with ⟨dv, hdv⟩
          rcases Option.isSome_iff_exists.mp hp with ⟨pv, hpv⟩
          simp [stopLoop, hopen, hdv, hpv, openRows, closedRows, closedRow, ihrest]

theorem stopLoop_equity (ts : List Trade) :
    ∀ (opens closeds : List TradeRow),
      stopLoop "equity" ts opens closeds = .ok (opens, closeds) := by
  induction ts with
  | nil => intro opens closeds; simp [stopLoop]
  | cons t rest ih =>
      intro opens closeds
      cases hopen : t.isopen <;> simp [stopLoop, hopen, ih]

theorem closedRows_ne_nil (ts : List Trade) (hcl : ∃ t ∈ ts, t.isopen = false) :
    closedRows ts ≠ [] := by
  rcases hcl with ⟨t, hmem, hopen⟩
  have : t ∈ ts.filter (fun t => !t.isopen) :=
    List.mem_filter.mpr ⟨hmem, by simp [hopen]⟩
  intro h
  rw [closedRows, List.map_eq_nil_iff] at h
  rw [h] at this
  exact List.not_mem_nil t this

/-- Full characterization of `stop()`'s computation in mode
`"trades+equity"`, when every closed trade carries its exit attributes and
at least one trade is closed. -/
theorem stopCompute_trades_equity (ts : List Trade)
    (hexit : ∀ t ∈ ts, t.isopen = false →
      t.close_datetime.isSome ∧ t.exit_price.isSome)
    (hcl : ∃ t ∈ ts, t.isopen = false) :
    stopCompute "trades+equity" ts =
      .ok { openTrades := if (openRows ts).isEmpty then none else some (openRows ts)
            closedTrades := some (closedRows ts)
            equityCurve := some (cumsum 0 (sortByDate (closedPairs ts))) } := by
  have hne : closedRows ts ≠ [] := closedRows_ne_nil ts hcl
  rw [stopCompute, stopLoop_trades_equity ts hexit [] []]
  simp [closedPairs, List.isEmpty_iff, hne]

/-- In mode `"equity"` the `stop()` computation always raises: no trade is
ever appended to `closedTrades` (the loop's trades-branch is skipped), so
`o.closedTrades` is `None` and `o.closedTrades[['exit_date','pnlcomm']]`
raises a `TypeError`. -/
theorem stopCompute_equity_raises (ts : List Trade) :
    stopCompute "equity" ts = .error Err.noneSubscript := by
  rw [stopCompute, stopLoop_equity ts [] []]
  rfl

theorem stopLoop_missing_exit (mode : String)
    (hmode : mode = "trades" ∨ mode = "trades+equity") :
    ∀ ts : List Trade,
      (∃ t ∈ ts, t.isopen = false ∧
        (t.close_datetime = none ∨ t.exit_price = none)) →
      ∀ opens closeds, stopLoop mode ts opens closeds = .error Err.missingExitAttr := by
  intro ts
  induction ts with
  | nil => intro h; simp at h
  | cons t rest ih =>
      intro hmiss opens closeds
      rcases hmiss with ⟨u, hu, huo, humiss⟩
      rcases List.mem_cons.mp hu with rfl | humem
      · rcases hmode with rfl | rfl <;>
          rcases humiss with h | h <;>
          cases hc : u.close_datetime <;>
          cases hp : u.exit_price <;>
          simp_all [stopLoop]
      · have ihrest := ih ⟨u, humem, huo, humiss⟩
        rcases hmode with rfl | rfl
        · cases hc : t.close_datetime <;> cases hp : t.exit_price <;>
            simp [stopLoop, hc, hp, ihrest]
        · cases hopen : t.isopen
          · cases hc : t.close_datetime <;> cases hp : t.exit_price <;>
              simp [stopLoop, hopen, hc, hp, ihrest]
          · simp [stopLoop, hopen, ihrest]

theorem dictInsert_fresh (d : List (Nat × Trade)) (k : Nat) (v : Trade)
    (h : k ∉ dictKeys d) : dictInsert d k v = d ++ [(k, v)] := by
  induction d with
  | nil => simp [dictInsert]
  | cons p rest ih =>
      simp only [dictKeys, List.map_cons, List.mem_cons, not_or] at h
      have hp : ¬ p.1 = k := fun he => h.1 he.symm
      simp only [dictInsert, if_neg hp, List.cons_append, List.cons.injEq, true_and]
      exact ih (by simpa [dictKeys] using h.2)

theorem foldl_insert_of_nodup :
    ∀ (ns : List Trade) (d : List (Nat × Trade)),
      (ns.map Trade.tradeid).Nodup →
      (∀ t ∈ ns, t.tradeid ∉ dictKeys d) →
      ns.foldl (fun d t => dictInsert d t.tradeid t) d =
        d ++ ns.map (fun t => (t.tradeid, t)) := by
  intro ns
  induction ns with
  | nil => intro d _ _; simp
  | cons t rest ih =>
      intro d hnd hfresh
      simp only [List.foldl_cons]
      rw [dictInsert_fresh d t.tradeid t (hfresh t (List.mem_cons_self _ _))]
      rw [ih (d ++ [(t.tradeid, t)]) (by simpa using hnd.of_cons) ?_]
      · simp
      · intro u hu
        simp only [dictKeys, List.map_append, List.mem_append]
        rintro (hmem | hmem)
        · exact hfresh u (List.mem_cons_of_mem _ hu) (by simpa [dictKeys] using hmem)
        · simp only [List.map_cons, List.map_nil, List.mem_singleton] at hmem
          have : t.tradeid ∈ rest.map Trade.tradeid :=
            List.mem_map.mpr ⟨u, hu, hmem⟩
          simp only [List.map_cons, List.nodup_cons] at hnd
          exact hnd.1 this

theorem dictValues_recordAll_of_nodup (ns : List Trade)
    (h : (ns.map Trade.tradeid).Nodup) : dictValues (recordAll ns) = ns := by
  rw [recordAll, foldl_insert_of_nodup ns [] h (by simp [dictKeys])]
  simp only [List.nil_append, dictValues, List.map_map]
  have hid : (Prod.snd ∘ fun t : Trade => (t.tradeid, t)) = id := rfl
  rw [hid, List.map_id]

theorem closedPairs_map_snd (ts : List Trade) :
    (closedPairs ts).map Prod.snd =
      (ts.filter (fun t => !t.isopen)).map Trade.pnlcomm := by
  simp only [closedPairs, closedRows, List.map_map]
  rfl

theorem finalEquity_trades_equity (ts : List Trade)
    (hexit : ∀ t ∈ ts, t.isopen = false →
      t.close_datetime.isSome ∧ t.exit_price.isSome)
    (hcl : ∃ t ∈ ts, t.isopen = false) :
    finalEquity (stopCompute "trades+equity" ts) = some (closedPnlSum ts) := by
  rw [stopCompute_trades_equity ts hexit hcl]
  have hpne : closedPairs ts ≠ [] := by
    intro h
    exact closedRows_ne_nil ts hcl (by simpa [closedPairs, List.map_eq_nil_iff] using h)
  have hsne : sortByDate (closedPairs ts) ≠ [] := by
    intro h
    have := (sortByDate_perm (closedPairs ts)).length_eq
    rw [h] at this
    exact hpne (List.length_eq_zero.mp this.symm)
  simp only [finalEquity, Option.getD_some]
  rw [cumsum_getLast_snd 0 _ hsne]
  have hsum : ((sortByDate (closedPairs ts)).map Prod.snd).sum =
      ((closedPairs ts).map Prod.snd).sum :=
    ((sortByDate_perm (closedPairs ts)).map Prod.snd).sum_eq
  rw [hsum, closedPairs_map_snd, closedPnlSum, zero_add]

/-! ### Concrete fixtures -/

/-- Test fixture: a trade with the given id, open flag, open datetime,
pnl/pnlcomm and optional exit attributes. -/
def mkTrade (i : Nat) (op : Bool) (od : Int) (pc : Int) (cd xp : Option Int) : Trade :=
  { tradeid := i
    isopen := op
    long := true
    entry_price := 100 + od
    open_datetime := od
    pnl := pc
    pnlcomm := pc
    close_datetime := cd
    exit_price := xp
    R := none }

def tC2cex : Trade := mkTrade 21 false 10 5 (some 50) (some 120)
def tC2w1 : Trade := mkTrade 22 true 11 1 none none
def tC2w2 : Trade := mkTrade 23 false 12 3 (some 40) (some 130)
def tC2w3 : Trade := mkTrade 24 false 13 (-2) (some 20) (some 90)
def tC4open : Trade := mkTrade 41 true 14 2 (some 15) (some 105)
def tC6miss : Trade := mkTrade 61 false 15 3 none (some 100)
def tC8t : Trade := mkTrade 81 false 16 4 (some 20) (some 110)
def tC8new : Trade := mkTrade 82 true 17 0 none none
def ledgerC8 : Ledger :=
  { mode := "trades+equity", tradeDict := some (recordAll [tC8t]), rets := none }
def finalC8 : Ledger :=
  { mode := "trades+equity"
    tradeDict := none
    rets := some { openTrades := none
                   closedTrades := some [closedRow tC8t]
                   equityCurve := some [(20, 4)] } }
def tC9t : Trade := mkTrade 91 false 18 5 (some 21) (some 111)
def ledgerC9 : Ledger :=
  { mode := "trades+equity", tradeDict := some (recordAll [tC9t]), rets := none }
def finalC9 : Ledger :=
  { mode := "trades+equity"
    tradeDict := none
    rets := some { openTrades := none
                   closedTrades := some [closedRow tC9t]
                   equityCurve := some [(21, 5)] } }
def tC9w : Trade := mkTrade 92 false 19 6 (some 22) (some 112)
def ledgerC9w : Ledger :=
  { mode := "trades+equity", tradeDict := some (recordAll [tC9w]), rets := none }
def finalC9w : Ledger :=
  { mode := "trades+equity"
    tradeDict := none
    rets := some { openTrades := none
                   closedTrades := some [closedRow tC9w]
                   equityCurve := some [(22, 6)] } }
def tDup1 : Trade := mkTrade 7 false 1 5 (some 30) (some 101)
def tDup2 : Trade := mkTrade 7 false 2 7 (some 31) (some 102)
def tC10a : Trade := mkTrade 31 false 3 2 (some 40) (some 103)
def tC10b : Trade := mkTrade 32 false 4 3 (some 35) (some 104)

/-! ### Claim theorems -/

/-- C2 counterexample: the claim quantifies over every mode that includes
equity, but in mode `"equity"` the code never populates `closedTrades`
(the trades-branch of the loop is skipped), so the equity derivation
subscripts `None` and `stop()` raises instead of emitting a one-point
curve for the single closed trade. -/
theorem equity_curve_modes_cex :
    tC2cex.isopen = false ∧ tC2cex.close_datetime.isSome ∧
    stopCompute "equity" [tC2cex] = Except.error Err.noneSubscript := by decide

/-- C2 (amended): in mode `"trades+equity"`, for every stored set of trades
whose closed trades all carry exit data and with at least one closed trade,
`stop()` emits an equity curve that is the running sum (starting from zero,
no leading zero point) of `pnlcomm` over the closed trades reordered by
`exit_date` ascending, with exactly one point per closed trade. -/
theorem equity_curve_derivation (ts : List Trade)
    (hexit : ∀ t ∈ ts, t.isopen = false →
      t.close_datetime.isSome ∧ t.exit_price.isSome)
    (hcl : ∃ t ∈ ts, t.isopen = false) :
    ∃ r sorted,
      stopCompute "trades+equity" ts = Except.ok r ∧
      List.Perm sorted (closedPairs ts) ∧
      List.Pairwise (fun a b : Int × Int => a.1 ≤ b.1) sorted ∧
      r.equityCurve = some (cumsum 0 sorted) ∧
      (cumsum 0 sorted).length = (ts.filter (fun t => !t.isopen)).length := by
  refine ⟨_, sortByDate (closedPairs ts), stopCompute_trades_equity ts hexit hcl,
    sortByDate_perm _, sortByDate_sorted _, rfl, ?_⟩
  rw [cumsum_length, (sortByDate_perm (closedPairs ts)).length_eq]
  simp [closedPairs, closedRows]

theorem equity_curve_derivation_witness :
    (∀ t ∈ [tC2w1, tC2w2, tC2w3], t.isopen = false →
      t.close_datetime.isSome ∧ t.exit_price.isSome) ∧
    (∃ t ∈ [tC2w1, tC2w2, tC2w3], t.isopen = false) ∧
    (∃ r sorted,
      stopCompute "trades+equity" [tC2w1, tC2w2, tC2w3] = Except.ok r ∧
      List.Perm sorted (closedPairs [tC2w1, tC2w2, tC2w3]) ∧
      List.Pairwise (fun a b : Int × Int => a.1 ≤ b.1) sorted ∧
      r.equityCurve = some (cumsum 0 sorted) ∧
      (cumsum 0 sorted).length =
        ([tC2w1, tC2w2, tC2w3].filter (fun t => !t.isopen)).length) :=
  ⟨by decide, by decide, equity_curve_derivation _ (by decide) (by decide)⟩

/-- C3: the spec promises that an empty ledger yields empty results with no
error, but for the two modes that include equity, `closedTrades` is `None`
on an empty ledger and `stop()` raises a `TypeError` when subscripting it;
only mode `"trades"` returns the (empty = `None`) results. -/
theorem empty_ledger_raises :
    runRecorder "trades+equity" [] = Except.error Err.noneSubscript ∧
    runRecorder "equity" [] = Except.error Err.noneSubscript ∧
    runRecorder "trades" [] =
      Except.ok { openTrades := none, closedTrades := none, equityCurve := none } := by
  decide

/-- C4: in mode `"trades"` an open trade is NOT placed in `openTrades`:
the open-branch guard tests membership of the mode in
`['trade','trades+equity']` (note `'trade'`, a value that is rejected at
construction) instead of `['trades','trades+equity']`, so the open trade
falls into the closed branch and is appended to `closedTrades`. -/
theorem trades_mode_misclassifies_open :
    tC4open.isopen = true ∧
    stopCompute "trades" [tC4open] =
      Except.ok { openTrades := none
                  closedTrades := some [closedRow tC4open]
                  equityCurve := none } := by
  decide

/-- C5: in mode `"equity"` the `stop()` computation never returns results:
the loop appends to neither partition, `closedTrades` is set to `None`,
and the equity derivation subscripts `None`, raising a `TypeError` for
every ledger content whatsoever. -/
theorem equity_mode_never_populates (ts : List Trade) :
    stopCompute "equity" ts = Except.error Err.noneSubscript :=
  stopCompute_equity_raises ts

/-- C6: in the modes that materialize the closed partition, a trade that
reaches the closed branch with a missing exit attribute makes `stop()`
raise (the logged-then-reraised `AttributeError`, the code's
MissingExitDataError) rather than being silently omitted. -/
theorem missing_exit_propagates (mode : String) (ts : List Trade)
    (hmode : mode = "trades" ∨ mode = "trades+equity")
    (hmiss : ∃ t ∈ ts, t.isopen = false ∧
      (t.close_datetime = none ∨ t.exit_price = none)) :
    stopCompute mode ts = Except.error Err.missingExitAttr := by
  rw [stopCompute, stopLoop_missing_exit mode hmode ts hmiss [] []]

theorem missing_exit_propagates_witness :
    (("trades+equity" : String) = "trades" ∨
      ("trades+equity" : String) = "trades+equity") ∧
    (∃ t ∈ [tC6miss], t.isopen = false ∧
      (t.close_datetime = none ∨ t.exit_price = none)) ∧
    stopCompute "trades+equity" [tC6miss] = Except.error Err.missingExitAttr :=
  ⟨Or.inr rfl, by decide,
    missing_exit_propagates "trades+equity" [tC6miss] (Or.inr rfl) (by decide)⟩

theorem stop_ok_state (l l' : Ledger) (h : stop l = Except.ok l') :
    l'.tradeDict = none ∧ l'.rets.isSome := by
  rcases hd : l.tradeDict with _ | d
  · simp [stop, hd] at h
  · simp only [stop, hd] at h
    rcases hsc : stopCompute l.mode (dictValues d) with e | r
    · simp [hsc] at h
    · simp only [hsc, Except.ok.injEq] at h
      subst h
      exact ⟨rfl, rfl⟩

/-- C8: after a successful `stop()` the internal dict is `None`, the results
are populated, and any later `notify_trade` raises (the item-assignment
`TypeError`, the spec's InvalidStateError); since the call only raises, the
finalized results are untouched. -/
theorem record_after_finalize_fails (l l' : Ledger) (t : Trade)
    (h : stop l = Except.ok l') :
    l'.tradeDict = none ∧ l'.rets.isSome ∧
      notify_trade l' t = Except.error Err.noneAssign := by
  obtain ⟨hnone, hsome⟩ := stop_ok_state l l' h
  exact ⟨hnone, hsome, by simp [notify_trade, hnone]⟩

theorem record_after_finalize_fails_witness :
    stop ledgerC8 = Except.ok finalC8 ∧
    (finalC8.tradeDict = none ∧ finalC8.rets.isSome ∧
      notify_trade finalC8 tC8new = Except.error Err.noneAssign) :=
  ⟨by decide, record_after_finalize_fails ledgerC8 finalC8 tC8new (by decide)⟩

/-- C9 counterexample: a second `stop()` does not return the first results
again — `_tradeDict` was set to `None` by the first call, so iterating it
raises a `TypeError`. -/
theorem finalize_twice_cex :
    stop ledgerC9 = Except.ok finalC9 ∧
    stop finalC9 = Except.error Err.noneIterate := by decide

/-- C9 (amended): a second `stop()` without intervening `notify_trade`
fails with the iteration `TypeError` (the spec's InvalidStateError) instead
of returning the cached results; the first call's results themselves are
not modified by the failing call. -/
theorem finalize_twice_errors (l l' : Ledger) (h : stop l = Except.ok l') :
    stop l' = Except.error Err.noneIterate := by
  obtain ⟨hnone, _⟩ := stop_ok_state l l' h
  simp [stop, hnone]

theorem finalize_twice_errors_witness :
    stop ledgerC9w = Except.ok finalC9w ∧
    stop finalC9w = Except.error Err.noneIterate :=
  ⟨by decide, finalize_twice_errors ledgerC9w finalC9w (by decide)⟩

/-- C10 counterexample: recording the same `tradeid` twice and permuting
the two notifications changes which snapshot survives (last write wins),
hence the final equity value: 7 in one order, 5 in the other. -/
theorem equity_total_perm_cex :
    List.Perm [tDup1, tDup2] [tDup2, tDup1] ∧
    finalEquity (runRecorder "trades+equity" [tDup1, tDup2]) = some 7 ∧
    finalEquity (runRecorder "trades+equity" [tDup2, tDup1]) = some 5 :=
  ⟨List.Perm.swap tDup2 tDup1 [], by decide, by decide⟩

/-- C10 (amended): when no `tradeid` is recorded twice, a successful
`stop()` in mode `"trades+equity"` puts as last equity-curve value the
total sum of `pnlcomm` over all closed trades, and that value is invariant
under any permutation of the recording order. -/
theorem equity_total_order_independent (ns ns' : List Trade)
    (hperm : List.Perm ns ns')
    (hids : (ns.map Trade.tradeid).Nodup)
    (hexit : ∀ t ∈ ns, t.isopen = false →
      t.close_datetime.isSome ∧ t.exit_price.isSome)
    (hcl : ∃ t ∈ ns, t.isopen = false) :
    finalEquity (runRecorder "trades+equity" ns) = some (closedPnlSum ns) ∧
    finalEquity (runRecorder "trades+equity" ns') = some (closedPnlSum ns) := by
  have hids' : (ns'.map Trade.tradeid).Nodup :=
    ((hperm.map Trade.tradeid).nodup_iff).mp hids
  have hexit' : ∀ t ∈ ns', t.isopen = false →
      t.close_datetime.isSome ∧ t.exit_price.isSome :=
    fun t ht => hexit t (hperm.symm.subset ht)
  have hcl' : ∃ t ∈ ns', t.isopen = false := by
    rcases hcl with ⟨t, ht, hh⟩
    exact ⟨t, hperm.subset ht, hh⟩
  have hsum : closedPnlSum ns' = closedPnlSum ns :=
    (((hperm.filter _).map Trade.pnlcomm).sum_eq).symm
  constructor
  · rw [runRecorder, dictValues_recordAll_of_nodup ns hids]
    exact finalEquity_trades_equity ns hexit hcl
  · rw [runRecorder, dictValues_recordAll_of_nodup ns' hids', ← hsum]
    exact finalEquity_trades_equity ns' hexit' hcl'

theorem equity_total_order_independent_witness :
    List.Perm [tC10a, tC10b] [tC10b, tC10a] ∧
    ([tC10a, tC10b].map Trade.tradeid).Nodup ∧
    (∀ t ∈ [tC10a, tC10b], t.isopen = false →
      t.close_datetime.isSome ∧ t.exit_price.isSome) ∧
    (∃ t ∈ [tC10a, tC10b], t.isopen = false) ∧
    (finalEquity (runRecorder "trades+equity" [tC10a, tC10b]) =
        some (closedPnlSum [tC10a, tC10b]) ∧
      finalEquity (runRecorder "trades+equity" [tC10b, tC10a]) =
        some (closedPnlSum [tC10a, tC10b])) :=
  ⟨List.Perm.swap tC10b tC10a [], by decide, by decide, by decide,
    equity_total_order_independent [tC10a, tC10b] [tC10b, tC10a]
      (List.Perm.swap tC10b tC10a []) (by decide) (by decide) (by decide)⟩

end TradeRecorder
